import Mathlib

/-!
# Verification of the `semantic` SemVer 2.0 library

Shallow embedding of the Go package `semantic` (files `tag.go` of the
current revision): the `Tag` value type, the constructors `New`/`New2`/
`New3`/`New4` with their `normalize` trimming step, the regular-expression
recognizer `Parse` (the anchored pattern `semverRe` is embedded as an
equivalent recursive-descent recognizer over the character list), the
renderer `Tag.String`, and the precedence comparator `Tag.Less` with its
pre-release sub-comparator `cmpPreRelease` / `cmpChunks` / `cmpChunk`.

Go functions that can panic (`number` and `cmpNumeric` call
`strconv.Atoi` and panic on its error) are embedded as `Option`-valued
functions, `none` being the panic.  Go `int` is a 64-bit machine integer;
`strconv.Atoi` is modelled with its `ErrRange` behaviour, an error
whenever the value falls outside `[-2^63, 2^63 - 1]`.
-/

namespace Semantic

/-- Character class `[[:digit:]]` / `[0-9]` (byte values 48..57). -/
def isDigitC (c : Char) : Bool :=
  decide (48 ≤ c.toNat ∧ c.toNat ≤ 57)

/-- Character class `[a-zA-Z-]` (letters or hyphen, byte 45). -/
def isAlphaHyC (c : Char) : Bool :=
  decide ((65 ≤ c.toNat ∧ c.toNat ≤ 90) ∨ (97 ≤ c.toNat ∧ c.toNat ≤ 122) ∨ c.toNat = 45)

/-- Character class `[0-9a-zA-Z-]`. -/
def isAlnumHyC (c : Char) : Bool :=
  isDigitC c || isAlphaHyC c

/-- The digit-string value, most significant digit first:
`["2","7"] ↦ 27`.  Models the value computed by `strconv.Atoi` on an
all-digit string. -/
def digitsVal (cs : List Char) : Nat :=
  cs.foldl (fun a c => 10 * a + (c.toNat - 48)) 0

/-- Models Go `strconv.Atoi` (= `ParseInt(s, 10, 0)` on a 64-bit host):
optional single sign, then a non-empty digit string; errors (`none`)
on empty input, non-digit characters, or a value outside the signed
64-bit range. -/
def goAtoi (s : String) : Option Int :=
  match s.data with
  | [] => none
  | c :: cs =>
    let ds := if c = '+' ∨ c = '-' then cs else c :: cs
    let neg := c = '-'
    if ds = [] ∨ ¬ ds.all isDigitC then none
    else
      let v : Int := (digitsVal ds : Nat)
      let w : Int := if neg then -v else v
      if -9223372036854775808 ≤ w ∧ w ≤ 9223372036854775807 then some w else none

/-- The `Tag` struct: `Major`, `Minor`, `Patch` are Go `int` fields
(modelled as unbounded `Int`; no arithmetic is performed on them),
`PreRelease` and `BuildMetadata` are strings. -/
structure Tag where
  Major         : Int
  Minor         : Int
  Patch         : Int
  PreRelease    : String
  BuildMetadata : String
deriving DecidableEq, Repr

/-- The zero value `Tag{}` (`var empty = Tag{}` in the source). -/
def empty : Tag := ⟨0, 0, 0, "", ""⟩

/-- `hasPfx s p`: does the character list `s` start with `p`?
Models Go `strings.HasPrefix`. -/
def hasPfx : List Char → List Char → Bool
  | _, [] => true
  | [], _ :: _ => false
  | c :: cs, d :: ds => c = d && hasPfx cs ds

/-- Models Go `strings.TrimPrefix s p`: remove the leading occurrence of
`p` from `s` when present, otherwise return `s` unchanged. -/
def trimLead (s p : String) : String :=
  if hasPfx s.data p.data then ⟨s.data.drop p.data.length⟩ else s

/-- `normalize` from the source: `TrimPrefix(s, "-")` then
`TrimPrefix(·, "+")`. -/
def normalize (s : String) : String :=
  trimLead (trimLead s "-") "+"

/-- Constructor `New3`. -/
def New3 (major minor patch : Int) (preRelease buildMetadata : String) : Tag :=
  { Major := major
    Minor := minor
    Patch := patch
    PreRelease := normalize preRelease
    BuildMetadata := normalize buildMetadata }

/-- Constructor `New`. -/
def New (major minor patch : Int) : Tag :=
  New3 major minor patch "" ""

/-- Constructor `New2`. -/
def New2 (major minor patch : Int) (preRelease : String) : Tag :=
  New3 major minor patch preRelease ""

/-- Constructor `New4`. -/
def New4 (major minor patch : Int) (buildMetadata : String) : Tag :=
  New3 major minor patch "" buildMetadata

/-- Spec-side description of what the constructors actually store (the
amended claim wording): one leading `'-'` is removed if present, and
then one leading `'+'` is removed from the result if present; an
argument starting with neither is stored verbatim.  In particular an
argument starting with `"-+"` loses both characters. -/
def stripSeparators (s : String) : String :=
  match s.data with
  | [] => s
  | c :: rest =>
    if c = '-' then
      match rest with
      | [] => ⟨rest⟩
      | d :: rest2 => if d = '+' then ⟨rest2⟩ else ⟨rest⟩
    else if c = '+' then ⟨rest⟩ else s

/-- `isNumeric` from the source: the anchored regexp `^[[:digit:]]+$`. -/
def isNumeric (s : String) : Bool :=
  !s.data.isEmpty && s.data.all isDigitC

/-- `cmpNumeric` from the source: `strconv.Atoi` both identifiers
(a failing conversion panics, modelled by `none`), then three-way
compare the integer values. -/
def cmpNumeric (a b : String) : Option Int :=
  match goAtoi a, goAtoi b with
  | some aNum, some bNum =>
      some (if aNum < bNum then -1 else if aNum > bNum then 1 else 0)
  | _, _ => none

/-- Go's `<` on strings: lexicographic comparison (Go compares the
UTF-8 bytes; on valid UTF-8 that equals the codepoint-lexicographic
order used here). -/
def ltChars : List Char → List Char → Bool
  | [], [] => false
  | [], _ :: _ => true
  | _ :: _, [] => false
  | c :: cs, d :: ds => if c < d then true else if d < c then false else ltChars cs ds

/-- `cmpStrings` from the source: three-way lexicographic string
comparison via Go's `<` / `>` on strings. -/
def cmpStrings (a b : String) : Int :=
  if ltChars a.data b.data then -1 else if ltChars b.data a.data then 1 else 0

/-- `cmpChunk` from the source: classify both identifiers as numeric or
not, then compare numerically, lexically, or by the numeric-loses rule. -/
def cmpChunk (a b : String) : Option Int :=
  if isNumeric a && isNumeric b then cmpNumeric a b
  else if !isNumeric a && !isNumeric b then some (cmpStrings a b)
  else if isNumeric a && !isNumeric b then some (-1)
  else some 1

/-- `cmpChunks` from the source.  The Go `for`-loop over
`i < min (len a) (len b)` with `switch cmpChunk … { case 0: continue;
case -1: return true; case 1: return false }` and final
`return lenA < lenB` is embedded as simultaneous recursion on both lists;
the fallthrough (`c ∉ {-1, 0, 1}`) continues the loop like `case 0`. -/
def cmpChunks : List String → List String → Option Bool
  | a :: as_, b :: bs => -- compare aligned identifiers first
    (match cmpChunk a b with
     | none => none
     | some c =>
       if c = -1 then some true
       else if c = 1 then some false
       else cmpChunks as_ bs)
  | as_, bs => some (decide (as_.length < bs.length))

/-- `strings.Split(s, ".")`, on the character list. -/
def splitDots : List Char → List (List Char)
  | [] => [[]]
  | c :: cs =>
    if c = '.' then [] :: splitDots cs
    else
      match splitDots cs with
      | [] => [[c]]
      | p :: ps => (c :: p) :: ps

/-- `strings.Split(s, ".")` as used in `cmpPreRelease`. -/
def goSplit (s : String) : List String :=
  (splitDots s.data).map fun cs => ⟨cs⟩

/-- `cmpPreRelease` from the source: empty pre-release (a final release)
is never less; a non-empty pre-release is less than a release; otherwise
compare the dot-separated identifier sequences. -/
def cmpPreRelease (a b : String) : Option Bool :=
  if a = "" then some false
  else if b = "" then some true
  else cmpChunks (goSplit a) (goSplit b)

/-- `Tag.Less` from the source (build metadata ignored; pre-release
consulted only after major, minor and patch all tie). -/
def Tag.Less (t o : Tag) : Option Bool :=
  if t.Major < o.Major then some true
  else if t.Major > o.Major then some false
  else if t.Minor < o.Minor then some true
  else if t.Minor > o.Minor then some false
  else if t.Patch < o.Patch then some true
  else if t.Patch > o.Patch then some false
  else cmpPreRelease t.PreRelease o.PreRelease

/-- `Tag.Equal`: field-by-field structural equality (the Go `switch` of
`!=` cases). -/
def Tag.Equal (t o : Tag) : Bool :=
  if t.Major ≠ o.Major then false
  else if t.Minor ≠ o.Minor then false
  else if t.Patch ≠ o.Patch then false
  else if t.PreRelease ≠ o.PreRelease then false
  else if t.BuildMetadata ≠ o.BuildMetadata then false
  else true

/-! ## The recognizer

`Parse` matches the anchored regexp

`^v(0|[1-9]\d*)\.(0|[1-9]\d*)\.(0|[1-9]\d*)`
`(?:-((?:0|[1-9]\d*|\d*[a-zA-Z-][0-9a-zA-Z-]*)(?:\.(…))*))?`
`(?:\+([0-9a-zA-Z-]+(?:\.[0-9a-zA-Z-]+)*))?$`

which we embed as a recursive-descent recognizer.  The embedding is
faithful because the regexp is anchored and its separators are
unambiguous: `.` cannot occur inside a version number, `+` cannot occur
inside a pre-release or build-metadata identifier, so the greedy
digit-run / first-`+` cut below is the only decomposition the regexp
could use. -/

/-- The group `0|[1-9]\d*`: a non-empty digit string that is `"0"` or has
no leading zero. -/
def numOK (cs : List Char) : Bool :=
  !cs.isEmpty && cs.all isDigitC && (cs = ['0'] || cs.head? ≠ some '0')

/-- The alternative `\d*[a-zA-Z-][0-9a-zA-Z-]*` of the pre-release
identifier group: leading digits, then a letter or hyphen, then
letters/digits/hyphens. -/
def identTailOK (cs : List Char) : Bool :=
  match cs.dropWhile isDigitC with
  | [] => false
  | c :: rest => isAlphaHyC c && rest.all isAlnumHyC

/-- One pre-release identifier: `0|[1-9]\d*|\d*[a-zA-Z-][0-9a-zA-Z-]*`. -/
def prIdentOK (cs : List Char) : Bool :=
  numOK cs || identTailOK cs

/-- The pre-release group: one or more dot-separated identifiers. -/
def prOK (cs : List Char) : Bool :=
  (splitDots cs).all prIdentOK

/-- One build-metadata identifier: `[0-9a-zA-Z-]+`. -/
def bmIdentOK (cs : List Char) : Bool :=
  !cs.isEmpty && cs.all isAlnumHyC

/-- The build-metadata group: one or more dot-separated identifiers. -/
def bmOK (cs : List Char) : Bool :=
  (splitDots cs).all bmIdentOK

/-- Read one version number: the leading digit run, which must satisfy
`numOK`; returns the digits and the unconsumed remainder. -/
def readNum (cs : List Char) : Option (List Char × List Char) :=
  if numOK (cs.takeWhile isDigitC) then
    some (cs.takeWhile isDigitC, cs.dropWhile isDigitC)
  else none

/-- Cut a character list at the first `'+'`:
returns the part before it and, when a `'+'` is present, the part after. -/
def splitAtPlus : List Char → List Char × Option (List Char)
  | [] => ([], none)
  | c :: rest =>
    if c = '+' then ([], some rest)
    else
      let (before, after) := splitAtPlus rest
      (c :: before, after)

/-- Recognize the optional `-pre` and `+build` extensions after the
`patch` number (both possibly absent; pre-release before
build-metadata). -/
def readExtension (cs : List Char) : Option (List Char × List Char) :=
  match cs with
  | [] => some ([], [])
  | c :: rest =>
    if c = '+' then
      if bmOK rest then some ([], rest) else none
    else if c = '-' then
      match splitAtPlus rest with
      | (pr, none) => if prOK pr then some (pr, []) else none
      | (pr, some bm) => if prOK pr && bmOK bm then some (pr, bm) else none
    else none

/-- The third version number and the extensions (the part of the regexp
after the second dot), with the two already-read numbers carried
along. -/
def recognize3 (r : List Char) (m1 m2 : List Char) :
    Option (List Char × List Char × List Char × List Char × List Char) :=
  match readNum r with
  | none => none
  | some (m3, r3) =>
    match readExtension r3 with
    | none => none
    | some (p, b) => some (m1, m2, m3, p, b)

/-- The second version number, its following dot, and the rest. -/
def recognize2 (r : List Char) (m1 : List Char) :
    Option (List Char × List Char × List Char × List Char × List Char) :=
  match readNum r with
  | none => none
  | some (m2, r2) =>
    match r2 with
    | [] => none
    | d2 :: r2' => if d2 = '.' then recognize3 r2' m1 m2 else none

/-- The first version number, its following dot, and the rest. -/
def recognize1 (cs : List Char) :
    Option (List Char × List Char × List Char × List Char × List Char) :=
  match readNum cs with
  | none => none
  | some (m1, r1) =>
    match r1 with
    | [] => none
    | d1 :: r1' => if d1 = '.' then recognize2 r1' m1 else none

/-- The whole anchored regexp `semverRe`: `'v'`, the three version
numbers separated by dots, then the optional extensions.  Returns the
five captured groups (`""` for an absent optional group). -/
def recognize (s : String) :
    Option (List Char × List Char × List Char × List Char × List Char) :=
  match s.data with
  | [] => none
  | c :: cs => if c = 'v' then recognize1 cs else none

/-- `Parse` from the source: run the regexp; on no match return the zero
`Tag` and `false`; on a match convert the three numbers with
`strconv.Atoi` (whose error would make `number` panic, modelled by
`none`) and return the tag with the captured pre-release and
build-metadata strings and `true`. -/
def Parse (s : String) : Option (Tag × Bool) :=
  match recognize s with
  | none => some (empty, false)
  | some (m1, m2, m3, p, b) =>
    match goAtoi ⟨m1⟩, goAtoi ⟨m2⟩, goAtoi ⟨m3⟩ with
    | some major, some minor, some patch =>
        some (⟨major, minor, patch, ⟨p⟩, ⟨b⟩⟩, true)
    | _, _, _ => none

/-! ## The renderer -/

/-- One decimal digit character. -/
def digitChar : Nat → Char
  | 0 => '0' | 1 => '1' | 2 => '2' | 3 => '3' | 4 => '4'
  | 5 => '5' | 6 => '6' | 7 => '7' | 8 => '8' | _ => '9'

/-- Big-endian decimal digits of `n`, fuel-structured exactly like
`Nat.toDigits`: the accumulator collects the digits from the least
significant end. -/
def toDigitsAux : Nat → Nat → List Char → List Char
  | 0, _, acc => acc
  | fuel + 1, n, acc =>
    if n < 10 then digitChar n :: acc
    else toDigitsAux fuel (n / 10) (digitChar (n % 10) :: acc)

/-- Big-endian decimal digits of `n` (`n + 1` is always enough fuel). -/
def natDigits (n : Nat) : List Char :=
  toDigitsAux (n + 1) n []

/-- Decimal rendering of a natural number, as Go `fmt` prints it. -/
def natRepr (n : Nat) : String :=
  ⟨natDigits n⟩

/-- Decimal rendering of a Go `int`, as `fmt.Sprintf("%d", ·)` prints
it. -/
def intRepr (n : Int) : String :=
  if n < 0 then "-" ++ natRepr (-n).toNat else natRepr n.toNat

/-- `Tag.String` from the source: `v<major>.<minor>.<patch>` with the
optional `-pre` and `+build` suffixes. -/
def Tag.String (t : Tag) : String :=
  let base := "v" ++ intRepr t.Major ++ "." ++ intRepr t.Minor ++ "." ++ intRepr t.Patch
  if t.PreRelease = "" && t.BuildMetadata = "" then base
  else if t.BuildMetadata = "" then base ++ "-" ++ t.PreRelease
  else if t.PreRelease = "" then base ++ "+" ++ t.BuildMetadata
  else base ++ "-" ++ t.PreRelease ++ "+" ++ t.BuildMetadata

/-! ## Decimal rendering: correctness of `natDigits` -/

theorem digitChar_toNat {d : Nat} (h : d < 10) : (digitChar d).toNat = 48 + d := by
  interval_cases d <;> rfl

theorem digitChar_isDigit (d : Nat) : isDigitC (digitChar d) = true := by
  rcases d with _ | _ | _ | _ | _ | _ | _ | _ | _ | d <;> rfl

theorem digitChar_ne_zero {d : Nat} (h1 : 1 ≤ d) (h10 : d < 10) : digitChar d ≠ '0' := by
  interval_cases d <;> decide

/-- Unfolds the boolean `numOK` to its three conditions. -/
theorem numOK_iff {cs : List Char} :
    numOK cs = true ↔ cs ≠ [] ∧ cs.all isDigitC = true ∧ (cs = ['0'] ∨ cs.head? ≠ some '0') := by
  cases cs <;> simp [numOK]

theorem toDigitsAux_acc (n : Nat) :
    ∀ fuel acc, n < fuel → toDigitsAux fuel n acc = natDigits n ++ acc := by
  induction n using Nat.strong_induction_on with
  | _ n ih =>
    intro fuel acc hfuel
    match fuel with
    | fuel + 1 =>
      by_cases h10 : n < 10
      · simp [toDigitsAux, natDigits, h10]
      · have hdiv : n / 10 < n := Nat.div_lt_self (by omega) (by omega)
        have lhs : toDigitsAux (fuel + 1) n acc
            = natDigits (n / 10) ++ digitChar (n % 10) :: acc := by
          rw [show toDigitsAux (fuel + 1) n acc
              = toDigitsAux fuel (n / 10) (digitChar (n % 10) :: acc) by
            simp [toDigitsAux, h10]]
          exact ih (n / 10) hdiv fuel _ (by omega)
        have rhs : natDigits n = natDigits (n / 10) ++ [digitChar (n % 10)] := by
          rw [show natDigits n = toDigitsAux n (n / 10) [digitChar (n % 10)] by
            simp [natDigits, toDigitsAux, h10]]
          exact ih (n / 10) hdiv n _ (by omega)
        rw [lhs, rhs, List.append_assoc]
        rfl

theorem natDigits_step {n : Nat} (h10 : ¬ n < 10) :
    natDigits n = natDigits (n / 10) ++ [digitChar (n % 10)] := by
  have hdiv : n / 10 < n := Nat.div_lt_self (by omega) (by omega)
  rw [show natDigits n = toDigitsAux n (n / 10) [digitChar (n % 10)] by
    simp [natDigits, toDigitsAux, h10]]
  exact toDigitsAux_acc (n / 10) n _ (by omega)

theorem natDigits_small {n : Nat} (h10 : n < 10) : natDigits n = [digitChar n] := by
  simp [natDigits, toDigitsAux, h10]

theorem digitsVal_append_digit (xs : List Char) (c : Char) :
    digitsVal (xs ++ [c]) = 10 * digitsVal xs + (c.toNat - 48) := by
  simp [digitsVal, List.foldl_append]

theorem natDigits_val (n : Nat) : digitsVal (natDigits n) = n := by
  induction n using Nat.strong_induction_on with
  | _ n ih =>
    by_cases h10 : n < 10
    · rw [natDigits_small h10]
      simp [digitsVal, digitChar_toNat h10]
    · have hdiv : n / 10 < n := Nat.div_lt_self (by omega) (by omega)
      rw [natDigits_step h10, digitsVal_append_digit, ih (n / 10) hdiv,
        digitChar_toNat (Nat.mod_lt n (by omega))]
      omega

theorem natDigits_ne_nil (n : Nat) : natDigits n ≠ [] := by
  by_cases h10 : n < 10
  · rw [natDigits_small h10]; simp
  · rw [natDigits_step h10]; simp

theorem natDigits_numOK (n : Nat) : numOK (natDigits n) = true := by
  induction n using Nat.strong_induction_on with
  | _ n ih =>
    by_cases h10 : n < 10
    · rw [natDigits_small h10]
      rcases Nat.eq_zero_or_pos n with h0 | h1
      · subst h0; rfl
      · rw [numOK_iff]
        refine ⟨by simp, by simp [digitChar_isDigit], Or.inr ?_⟩
        simpa using digitChar_ne_zero h1 h10
    · have hdiv : n / 10 < n := Nat.div_lt_self (by omega) (by omega)
      have ihd := (numOK_iff).mp (ih (n / 10) hdiv)
      rw [natDigits_step h10, numOK_iff]
      refine ⟨by simp, ?_, Or.inr ?_⟩
      · simp [List.all_append, ihd.2.1, digitChar_isDigit]
      · obtain ⟨c, cs, hcons⟩ := List.exists_cons_of_ne_nil ihd.1
        rw [hcons]
        simp only [List.cons_append, List.head?_cons]
        rcases ihd.2.2 with hzero | hhead
        · -- the head list is exactly ['0'], so n / 10 renders as "0";
          -- but n ≥ 10 makes n / 10 ≥ 1, contradicting its value 0
          exfalso
          have hv := natDigits_val (n / 10)
          rw [hcons] at hzero
          rw [hzero] at hcons
          rw [hcons] at hv
          simp [digitsVal] at hv
          omega
        · rw [hcons] at hhead
          simpa using hhead

theorem natDigits_all_digit (n : Nat) : (natDigits n).all isDigitC = true := by
  have h := natDigits_numOK n
  simp only [numOK, Bool.and_eq_true] at h
  exact h.1.2

/-! ## `goAtoi` on digit strings -/

theorem isDigitC_ne_sign {c : Char} (h : isDigitC c = true) : ¬ (c = '+' ∨ c = '-') := by
  simp only [isDigitC, decide_eq_true_eq] at h
  rintro (rfl | rfl) <;> simp at h

theorem goAtoi_digits {ds : List Char} (h1 : ds ≠ []) (h2 : ds.all isDigitC = true) :
    goAtoi ⟨ds⟩ =
      if digitsVal ds ≤ 9223372036854775807 then some ((digitsVal ds : Nat) : Int)
      else none := by
  obtain ⟨c, cs, rfl⟩ := List.exists_cons_of_ne_nil h1
  have hc : isDigitC c = true := by
    simp only [List.all_cons, Bool.and_eq_true] at h2; exact h2.1
  have hsign := isDigitC_ne_sign hc
  have hneg : ¬ c = '-' := fun h => hsign (Or.inr h)
  have hplus : ¬ c = '+' := fun h => hsign (Or.inl h)
  have hguard : ¬ (c :: cs = [] ∨ ¬ (c :: cs).all isDigitC = true) := by simp [h2]
  simp only [goAtoi, eq_false hplus, eq_false hneg, false_or, or_false, or_self,
    if_false, eq_false hguard]
  by_cases hb : digitsVal (c :: cs) ≤ 9223372036854775807
  · have hcond : (-9223372036854775808 : Int) ≤ (digitsVal (c :: cs) : Int) ∧
        ((digitsVal (c :: cs) : Int)) ≤ 9223372036854775807 := by omega
    rw [if_pos hcond, if_pos hb]
  · have hcond : ¬ ((-9223372036854775808 : Int) ≤ (digitsVal (c :: cs) : Int) ∧
        ((digitsVal (c :: cs) : Int)) ≤ 9223372036854775807) := by omega
    rw [if_neg hcond, if_neg hb]

theorem goAtoi_digits_inv {ds : List Char} {v : Int} (h1 : ds ≠ [])
    (h2 : ds.all isDigitC = true) (h : goAtoi ⟨ds⟩ = some v) :
    v = ((digitsVal ds : Nat) : Int) ∧ digitsVal ds ≤ 9223372036854775807 := by
  rw [goAtoi_digits h1 h2] at h
  by_cases hb : digitsVal ds ≤ 9223372036854775807
  · rw [if_pos hb] at h
    exact ⟨(Option.some.injEq _ _ ▸ h).symm, hb⟩
  · rw [if_neg hb] at h
    exact absurd h (by simp)

/-- `goAtoi` round-trips on the decimal rendering of an in-range value. -/
theorem goAtoi_natRepr {n : Nat} (h : n ≤ 9223372036854775807) :
    goAtoi (natRepr n) = some (n : Int) := by
  rw [show natRepr n = ⟨natDigits n⟩ from rfl,
    goAtoi_digits (natDigits_ne_nil n) (natDigits_all_digit n), natDigits_val,
    if_pos h]

/-! ## Antisymmetry of the chunk comparators -/

theorem ltChars_asymm {a b : List Char} (h : ltChars a b = true) : ltChars b a = false := by
  induction a generalizing b with
  | nil =>
    cases b with
    | nil => simp [ltChars] at h
    | cons d ds => simp [ltChars]
  | cons c cs ih =>
    cases b with
    | nil => simp [ltChars] at h
    | cons d ds =>
      simp only [ltChars] at h ⊢
      rcases lt_trichotomy c d with hlt | heq | hgt
      · rw [if_neg (asymm hlt), if_pos hlt]
      · subst heq
        rw [if_neg (lt_irrefl c), if_neg (lt_irrefl c)] at h ⊢
        exact ih h
      · rw [if_neg (asymm hgt), if_pos hgt] at h
        exact absurd h (by simp)

theorem cmpStrings_antisym (a b : String) : cmpStrings b a = -(cmpStrings a b) := by
  unfold cmpStrings
  by_cases h1 : ltChars a.data b.data = true
  · have h2 := ltChars_asymm h1
    simp [h1, h2]
  · by_cases h2 : ltChars b.data a.data = true
    · simp [h1, h2]
    · simp [h1, h2]

theorem cmpNumeric_antisym {a b : String} {c : Int} (h : cmpNumeric a b = some c) :
    cmpNumeric b a = some (-c) := by
  unfold cmpNumeric at h ⊢
  cases ha : goAtoi a with
  | none => simp [ha] at h
  | some x =>
    cases hb : goAtoi b with
    | none => simp [ha, hb] at h
    | some y =>
      simp only [ha, hb, Option.some.injEq, gt_iff_lt] at h ⊢
      subst h
      rcases lt_trichotomy x y with hlt | heq | hgt
      · rw [if_neg (by omega), if_pos hlt, if_pos hlt]
        norm_num
      · subst heq
        rw [if_neg (by omega), if_neg (by omega)]
        norm_num
      · rw [if_pos hgt, if_neg (show ¬ x < y by omega), if_pos hgt]

theorem cmpChunk_antisym {a b : String} {c : Int} (h : cmpChunk a b = some c) :
    cmpChunk b a = some (-c) := by
  unfold cmpChunk at h ⊢
  cases hna : isNumeric a <;> cases hnb : isNumeric b <;> simp [hna, hnb] at h ⊢
  · rw [cmpStrings_antisym a b, h]
  · omega
  · omega
  · exact cmpNumeric_antisym h

theorem cmpChunks_antisym {A B : List String} (h : cmpChunks A B = some true) :
    cmpChunks B A = some false := by
  induction A generalizing B with
  | nil =>
    cases B with
    | nil => simp [cmpChunks] at h
    | cons b bs => simp [cmpChunks]
  | cons a as_ ih =>
    cases B with
    | nil => simp [cmpChunks] at h
    | cons b bs =>
      simp only [cmpChunks] at h ⊢
      cases hc : cmpChunk a b with
      | none => simp [hc] at h
      | some c =>
        have hba := cmpChunk_antisym hc
        simp only [hc] at h
        simp only [hba]
        by_cases h1 : c = -1
        · subst h1
          rw [if_neg (by norm_num), if_pos (by norm_num)]
        · by_cases h2 : c = 1
          · subst h2
            rw [if_neg h1, if_pos rfl] at h
            simp at h
          · rw [if_neg h1, if_neg h2] at h
            rw [if_neg (by omega : ¬ -c = -1), if_neg (by omega : ¬ -c = 1)]
            exact ih h

theorem cmpPreRelease_antisym {a b : String} (h : cmpPreRelease a b = some true) :
    cmpPreRelease b a = some false := by
  unfold cmpPreRelease at h ⊢
  by_cases ha : a = ""
  · simp [ha] at h
  · by_cases hb : b = ""
    · rw [if_pos hb]
    · rw [if_neg ha, if_neg hb] at h
      rw [if_neg hb, if_neg ha]
      exact cmpChunks_antisym h

/-- For `cmpChunks` under pairwise-equal aligned identifiers the result
is completely determined by the lengths, in both orientations. -/
theorem cmpChunks_all_zero {A B : List String}
    (h : ∀ p ∈ A.zip B, cmpChunk p.1 p.2 = some 0) :
    cmpChunks A B = some (decide (A.length < B.length)) ∧
    cmpChunks B A = some (decide (B.length < A.length)) := by
  induction A generalizing B with
  | nil =>
    cases B with
    | nil => simp [cmpChunks]
    | cons b bs => constructor <;> simp [cmpChunks]
  | cons a as_ ih =>
    cases B with
    | nil => constructor <;> simp [cmpChunks]
    | cons b bs =>
      have hab : cmpChunk a b = some 0 := by
        refine h (a, b) ?_
        rw [List.zip_cons_cons]
        exact List.mem_cons_self _ _
      have hba : cmpChunk b a = some 0 := by
        have h' := cmpChunk_antisym hab
        simpa using h'
      have ih' := ih (fun p hp => by
        refine h p ?_
        rw [List.zip_cons_cons]
        exact List.mem_cons_of_mem _ hp)
      have hlen1 : decide ((a :: as_).length < (b :: bs).length)
          = decide (as_.length < bs.length) := by
        simp [Nat.succ_lt_succ_iff]
      have hlen2 : decide ((b :: bs).length < (a :: as_).length)
          = decide (bs.length < as_.length) := by
        simp [Nat.succ_lt_succ_iff]
      simp only [cmpChunks, hab, hba, hlen1, hlen2]
      rw [if_neg (by norm_num : ¬ (0 : Int) = -1), if_neg (by norm_num : ¬ (0 : Int) = 1)]
      exact ih'

/-! ## `normalize` and the constructors -/

theorem trimLead_dash (cs : List Char) :
    trimLead ⟨cs⟩ "-" = if cs.head? = some '-' then ⟨cs.drop 1⟩ else ⟨cs⟩ := by
  cases cs with
  | nil => rfl
  | cons c rest =>
    show (if (decide (c = '-') && hasPfx rest []) = true then _ else _) = _
    by_cases hc : c = '-'
    · subst hc; simp [hasPfx]
    · simp [hasPfx, hc]

theorem trimLead_plus (cs : List Char) :
    trimLead ⟨cs⟩ "+" = if cs.head? = some '+' then ⟨cs.drop 1⟩ else ⟨cs⟩ := by
  cases cs with
  | nil => rfl
  | cons c rest =>
    show (if (decide (c = '+') && hasPfx rest []) = true then _ else _) = _
    by_cases hc : c = '+'
    · subst hc; simp [hasPfx]
    · simp [hasPfx, hc]

/-- What the source `normalize` computes, phrased as the case analysis
of `stripSeparators`. -/
theorem normalize_eq_strip (s : String) : normalize s = stripSeparators s := by
  obtain ⟨cs⟩ := s
  rw [normalize, trimLead_dash]
  cases cs with
  | nil =>
    rw [if_neg (by simp), trimLead_plus, if_neg (by simp)]
    rfl
  | cons c rest =>
    by_cases hc : c = '-'
    · subst hc
      rw [if_pos (by simp)]
      rw [show (('-' :: rest).drop 1) = rest from rfl, trimLead_plus]
      show _ = stripSeparators ⟨'-' :: rest⟩
      simp only [stripSeparators]
      rw [if_pos trivial]
      cases rest with
      | nil => simp
      | cons d rest2 =>
        by_cases hd : d = '+'
        · subst hd; simp
        · simp [hd]
    · rw [if_neg (by simp [hc]), trimLead_plus]
      show _ = stripSeparators ⟨c :: rest⟩
      simp only [stripSeparators]
      rw [if_neg hc]
      by_cases hp : c = '+'
      · subst hp; simp
      · simp [hp]

/-! ## The claims -/

/-- Claim C1.  The claim states that two purely numeric identifiers are
always compared as integers; the code instead panics (`none`) as soon as
one of them exceeds the signed 64-bit range, because `cmpNumeric` treats
the `strconv.Atoi` range error as an unreachable internal bug.  Here
`"9223372036854775808"` (2^63) and `"2"` are both numeric, the integer
comparison would yield "greater", yet `cmpChunk` panics. -/
theorem cmpChunk_numeric_overflow_panics :
    isNumeric "9223372036854775808" = true ∧ isNumeric "2" = true ∧
    (9223372036854775808 : Int) > (2 : Int) ∧
    cmpChunk "9223372036854775808" "2" = none := by
  refine ⟨by decide, by decide, by decide, by decide⟩

/-- Claim C2.  `Less` compares `Major` first, `Minor` only on equal
majors, `Patch` only on equal majors and minors, and the pre-release
fields only on a full tie of the three numbers; in particular with equal
majors and `b.Minor < a.Minor` the result is `some false` regardless of
the pre-release fields. -/
theorem Less_field_priority (a b : Tag) :
    (a.Major ≠ b.Major → Tag.Less a b = some (decide (a.Major < b.Major))) ∧
    (a.Major = b.Major → a.Minor ≠ b.Minor →
      Tag.Less a b = some (decide (a.Minor < b.Minor))) ∧
    (a.Major = b.Major → a.Minor = b.Minor → a.Patch ≠ b.Patch →
      Tag.Less a b = some (decide (a.Patch < b.Patch))) ∧
    (a.Major = b.Major → a.Minor = b.Minor → a.Patch = b.Patch →
      Tag.Less a b = cmpPreRelease a.PreRelease b.PreRelease) ∧
    (a.Major = b.Major → b.Minor < a.Minor → Tag.Less a b = some false) := by
  unfold Tag.Less
  refine ⟨?_, ?_, ?_, ?_, ?_⟩
  · intro h
    rcases lt_or_gt_of_ne h with hlt | hgt
    · rw [if_pos hlt]; simp [hlt]
    · rw [if_neg (by omega), if_pos hgt]
      simp [show ¬ a.Major < b.Major by omega]
  · intro h1 h2
    rw [if_neg (by omega), if_neg (by omega)]
    rcases lt_or_gt_of_ne h2 with hlt | hgt
    · rw [if_pos hlt]; simp [hlt]
    · rw [if_neg (by omega), if_pos hgt]
      simp [show ¬ a.Minor < b.Minor by omega]
  · intro h1 h2 h3
    rw [if_neg (by omega), if_neg (by omega), if_neg (by omega), if_neg (by omega)]
    rcases lt_or_gt_of_ne h3 with hlt | hgt
    · rw [if_pos hlt]; simp [hlt]
    · rw [if_neg (by omega), if_pos hgt]
      simp [show ¬ a.Patch < b.Patch by omega]
  · intro h1 h2 h3
    rw [if_neg (by omega), if_neg (by omega), if_neg (by omega), if_neg (by omega),
      if_neg (by omega), if_neg (by omega)]
  · intro h1 h2
    rw [if_neg (by omega), if_neg (by omega), if_neg (by omega),
      if_pos (show _ > _ by omega)]

/-- Witness for claim C2 at a concrete input: equal majors, strictly
larger minor on the left, a pre-release only on the left — the result is
`some false` even though `"x"` would lexically precede `""`'s
release-dominance rule. -/
theorem Less_field_priority_w :
    (1 : Int) = 1 ∧ (0 : Int) < 2 ∧
    Tag.Less ⟨1, 2, 3, "x", "m"⟩ ⟨1, 0, 0, "", ""⟩ = some false :=
  ⟨rfl, by norm_num,
    (Less_field_priority ⟨1, 2, 3, "x", "m"⟩ ⟨1, 0, 0, "", ""⟩).2.2.2.2 rfl (by norm_num)⟩

/-- Claim C3.  The precedence comparator is antisymmetric: `Less a b`
and `Less b a` never both return `true`. -/
theorem Less_antisymm (a b : Tag) :
    ¬ (Tag.Less a b = some true ∧ Tag.Less b a = some true) := by
  rintro ⟨h1, h2⟩
  unfold Tag.Less at h1 h2
  rcases lt_trichotomy a.Major b.Major with h | h | h
  · rw [if_neg (by omega), if_pos (show _ > _ by omega)] at h2
    exact absurd h2 (by simp)
  · rw [if_neg (by omega), if_neg (by omega)] at h1
    rw [if_neg (by omega), if_neg (by omega)] at h2
    rcases lt_trichotomy a.Minor b.Minor with hm | hm | hm
    · rw [if_neg (by omega), if_pos (show _ > _ by omega)] at h2
      exact absurd h2 (by simp)
    · rw [if_neg (by omega), if_neg (by omega)] at h1
      rw [if_neg (by omega), if_neg (by omega)] at h2
      rcases lt_trichotomy a.Patch b.Patch with hp | hp | hp
      · rw [if_neg (by omega), if_pos (show _ > _ by omega)] at h2
        exact absurd h2 (by simp)
      · rw [if_neg (by omega), if_neg (by omega)] at h1
        rw [if_neg (by omega), if_neg (by omega)] at h2
        have hcontra := cmpPreRelease_antisym h1
        rw [h2] at hcontra
        exact absurd hcontra (by simp)
      · rw [if_neg (by omega), if_pos (show _ > _ by omega)] at h1
        exact absurd h1 (by simp)
    · rw [if_neg (by omega), if_pos (show _ > _ by omega)] at h1
      exact absurd h1 (by simp)
  · rw [if_neg (by omega), if_pos (show _ > _ by omega)] at h1
    exact absurd h1 (by simp)

/-- Witness for claim C3 at a concrete pair of tags. -/
theorem Less_antisymm_w :
    ¬ (Tag.Less ⟨1, 0, 0, "alpha", ""⟩ ⟨1, 0, 0, "beta", ""⟩ = some true ∧
       Tag.Less ⟨1, 0, 0, "beta", ""⟩ ⟨1, 0, 0, "alpha", ""⟩ = some true) :=
  Less_antisymm ⟨1, 0, 0, "alpha", ""⟩ ⟨1, 0, 0, "beta", ""⟩

/-- Claim C5.  The recognizer reproduces the fixture set exactly:
missing `v` prefix, an underscore separator and a leading zero are
rejected (returning the zero tag and `false`); the four well-formed
fixtures decompose into exactly the expected fields. -/
theorem Parse_fixtures :
    Parse "1.2.3" = some (empty, false) ∧
    Parse "v1.2.3_beta" = some (empty, false) ∧
    Parse "v00.0.0" = some (empty, false) ∧
    Parse "v1.3.5" = some (⟨1, 3, 5, "", ""⟩, true) ∧
    Parse "v0.8.2-0.20190227000051-27936f6d90f9"
      = some (⟨0, 8, 2, "0.20190227000051-27936f6d90f9", ""⟩, true) ∧
    Parse "v2.0.0+incompatible" = some (⟨2, 0, 0, "", "incompatible"⟩, true) ∧
    Parse "v2.0.0-pre+incompatible" = some (⟨2, 0, 0, "pre", "incompatible"⟩, true) := by
  refine ⟨by decide, by decide, by decide, by decide, by decide, by decide, by decide⟩

/-- Claim C6.  Release dominance: an empty pre-release is never less
than anything; a non-empty pre-release always precedes the empty one;
lifted to tags sharing a major/minor/patch triple, the release tag is
never less than the pre-release tag and the pre-release tag always
precedes the release tag, whatever the build metadata. -/
theorem release_dominance :
    (∀ x : String, cmpPreRelease "" x = some false) ∧
    (∀ p : String, p ≠ "" → cmpPreRelease p "" = some true) ∧
    (∀ (M m pa : Int) (pr b1 b2 : String), pr ≠ "" →
      Tag.Less ⟨M, m, pa, "", b1⟩ ⟨M, m, pa, pr, b2⟩ = some false) ∧
    (∀ (M m pa : Int) (pr b1 b2 : String), pr ≠ "" →
      Tag.Less ⟨M, m, pa, pr, b1⟩ ⟨M, m, pa, "", b2⟩ = some true) := by
  have base1 : ∀ x : String, cmpPreRelease "" x = some false := by
    intro x; simp [cmpPreRelease]
  have base2 : ∀ p : String, p ≠ "" → cmpPreRelease p "" = some true := by
    intro p hp; simp [cmpPreRelease, hp]
  refine ⟨base1, base2, ?_, ?_⟩
  · intro M m pa pr b1 b2 _
    simp only [Tag.Less, lt_self_iff_false, gt_iff_lt, if_false]
    exact base1 pr
  · intro M m pa pr b1 b2 hpr
    simp only [Tag.Less, lt_self_iff_false, gt_iff_lt, if_false]
    exact base2 pr hpr

/-- Witness for claim C6 at a concrete pre-release tag. -/
theorem release_dominance_w :
    ("alpha" : String) ≠ "" ∧
    Tag.Less ⟨1, 2, 3, "alpha", "x"⟩ ⟨1, 2, 3, "", "y"⟩ = some true :=
  ⟨by decide, release_dominance.2.2.2 1 2 3 "alpha" "x" "y" (by decide)⟩

/-- Claim C7.  When two non-empty pre-release strings have all their
aligned identifier pairs compare equal, equal identifier counts make
them tie (neither precedes the other), and a strictly shorter sequence
precedes the longer one. -/
theorem preRelease_prefix_rule (a b : String) (ha : a ≠ "") (hb : b ≠ "")
    (h : ∀ p ∈ (goSplit a).zip (goSplit b), cmpChunk p.1 p.2 = some 0) :
    ((goSplit a).length = (goSplit b).length →
      cmpPreRelease a b = some false ∧ cmpPreRelease b a = some false) ∧
    ((goSplit a).length < (goSplit b).length →
      cmpPreRelease a b = some true ∧ cmpPreRelease b a = some false) := by
  have hc := cmpChunks_all_zero h
  unfold cmpPreRelease
  rw [if_neg ha, if_neg hb, if_neg hb, if_neg ha]
  constructor
  · intro hlen
    rw [hc.1, hc.2]
    constructor <;> simp [hlen]
  · intro hlen
    rw [hc.1, hc.2]
    constructor
    · simp [hlen]
    · simp [show ¬ (goSplit b).length < (goSplit a).length by omega]

/-- Witness for claim C7: `"alpha.1"` against `"alpha.1.2"`. -/
theorem preRelease_prefix_rule_w :
    cmpPreRelease "alpha.1" "alpha.1.2" = some true ∧
    cmpPreRelease "alpha.1.2" "alpha.1" = some false :=
  (preRelease_prefix_rule "alpha.1" "alpha.1.2" (by decide) (by decide)
    (by decide)).2 (by decide)

/-- Claim C8.  The claim states the comparator never fails on valid
tags, including numeric pre-release identifiers of any magnitude; but
on the recognizer-accepted tag `v1.0.0-9223372036854775808` the
comparator panics (`cmpNumeric` hits the `strconv.Atoi` range error),
even when the tag is compared with itself. -/
theorem Less_overflow_panics :
    Parse "v1.0.0-9223372036854775808" =
      some (⟨1, 0, 0, "9223372036854775808", ""⟩, true) ∧
    Tag.Less ⟨1, 0, 0, "9223372036854775808", ""⟩
      ⟨1, 0, 0, "9223372036854775808", ""⟩ = none := by
  refine ⟨by decide, by decide⟩

/-- Claim C9, counterexample.  The claim says exactly one leading `'-'`
or `'+'` is removed from a constructor argument; on the argument
`"-+x"` the code removes both characters, storing `"x"` instead of the
claimed `"+x"`. -/
theorem constructors_strip_cex :
    (New2 1 2 3 "-+x").PreRelease = "x" ∧ (New2 1 2 3 "-+x").PreRelease ≠ "+x" := by
  refine ⟨by decide, by decide⟩

/-- Claim C9, amended.  Every constructor stores `stripSeparators` of
its pre-release/build-metadata argument: one leading `'-'` is removed if
present, then one leading `'+'` is removed from the result if present
(so `"-+…"` loses two characters); arguments starting with neither
character are stored verbatim. -/
theorem constructors_strip (M m pa : Int) (pr bm : String) :
    (New3 M m pa pr bm).PreRelease = stripSeparators pr ∧
    (New3 M m pa pr bm).BuildMetadata = stripSeparators bm ∧
    (New2 M m pa pr).PreRelease = stripSeparators pr ∧
    (New2 M m pa pr).BuildMetadata = "" ∧
    (New4 M m pa bm).BuildMetadata = stripSeparators bm ∧
    (New4 M m pa bm).PreRelease = "" ∧
    (New M m pa).PreRelease = "" ∧ (New M m pa).BuildMetadata = "" := by
  have h0 : stripSeparators "" = "" := rfl
  simp [New, New2, New3, New4, normalize_eq_strip, h0]

/-- Claim C10.  Whenever the recognizer reports failure the tag half of
the result is exactly the zero tag — the same value a successful parse
of `"v0.0.0"` produces, so only the boolean distinguishes the two. -/
theorem Parse_fail_zero :
    (∀ s t, Parse s = some (t, false) → t = empty) ∧
    Parse "v0.0.0" = some (empty, true) := by
  constructor
  · intro s t h
    unfold Parse at h
    cases hr : recognize s with
    | none =>
      simp only [hr] at h
      simp at h
      exact h.symm
    | some parts =>
      obtain ⟨m1, m2, m3, p, b⟩ := parts
      simp only [hr] at h
      cases g1 : goAtoi ⟨m1⟩ <;> cases g2 : goAtoi ⟨m2⟩ <;> cases g3 : goAtoi ⟨m3⟩ <;>
        simp [g1, g2, g3] at h
  · decide

/-- Witness for claim C10 at the concrete rejected input `"1.2.3"`. -/
theorem Parse_fail_zero_w :
    Parse "1.2.3" = some (empty, false) ∧ empty = empty :=
  ⟨by decide, Parse_fail_zero.1 "1.2.3" empty (by decide)⟩

/-! ## Round-trip machinery: the recognizer on rendered strings -/

theorem span_append {f : Char → Bool} {d r : List Char} (h1 : d.all f = true)
    (h2 : ∀ c, r.head? = some c → f c = false) :
    (d ++ r).takeWhile f = d ∧ (d ++ r).dropWhile f = r := by
  induction d with
  | nil =>
    simp only [List.nil_append]
    cases r with
    | nil => simp
    | cons c rest =>
      have hc := h2 c rfl
      simp [List.takeWhile_cons, List.dropWhile_cons, hc]
  | cons a d' ih =>
    simp only [List.all_cons, Bool.and_eq_true] at h1
    have ihr := ih h1.2
    simp [List.takeWhile_cons, List.dropWhile_cons, h1.1, ihr.1, ihr.2]

theorem readNum_render {d r : List Char} (hn : numOK d = true)
    (h2 : ∀ c, r.head? = some c → isDigitC c = false) :
    readNum (d ++ r) = some (d, r) := by
  have hall : d.all isDigitC = true := ((numOK_iff).mp hn).2.1
  have hspan := span_append hall h2
  rw [readNum, hspan.1, hspan.2, if_pos hn]

theorem readNum_inv {cs ds r : List Char} (h : readNum cs = some (ds, r)) :
    numOK ds = true := by
  unfold readNum at h
  split at h
  next hok =>
    simp only [Option.some.injEq, Prod.mk.injEq] at h
    rw [← h.1]
    exact hok
  next => simp at h

theorem splitAtPlus_no_plus {cs : List Char} (h : '+' ∉ cs) :
    splitAtPlus cs = (cs, none) := by
  induction cs with
  | nil => rfl
  | cons c rest ih =>
    have hc : ¬ c = '+' := fun hc => h (by rw [hc]; exact List.mem_cons_self _ _)
    simp only [splitAtPlus, if_neg hc,
      ih (fun hm => h (List.mem_cons_of_mem _ hm))]

theorem splitAtPlus_cut {xs ys : List Char} (h : '+' ∉ xs) :
    splitAtPlus (xs ++ '+' :: ys) = (xs, some ys) := by
  induction xs with
  | nil => simp [splitAtPlus]
  | cons c rest ih =>
    have hc : ¬ c = '+' := fun hc => h (by rw [hc]; exact List.mem_cons_self _ _)
    simp only [List.cons_append, splitAtPlus, if_neg hc, List.append_eq,
      ih (fun hm => h (List.mem_cons_of_mem _ hm))]

theorem takeWhile_self_all {f : Char → Bool} (l : List Char) :
    (l.takeWhile f).all f = true := by
  induction l with
  | nil => rfl
  | cons c rest ih =>
    cases hc : f c <;> simp [List.takeWhile_cons, hc, ih]

theorem prIdentOK_alnum {cs : List Char} (h : prIdentOK cs = true) :
    cs.all isAlnumHyC = true := by
  unfold prIdentOK at h
  simp only [Bool.or_eq_true] at h
  rcases h with hnum | htail
  · have hall := ((numOK_iff).mp hnum).2.1
    rw [List.all_eq_true] at hall ⊢
    intro c hcmem
    have hd := hall c hcmem
    simp only [isAlnumHyC, Bool.or_eq_true]
    exact Or.inl hd
  · unfold identTailOK at htail
    rcases hd : cs.dropWhile isDigitC with _ | ⟨c, rest⟩
    · rw [hd] at htail; simp at htail
    · rw [hd] at htail
      simp only [Bool.and_eq_true] at htail
      have hsplit := List.takeWhile_append_dropWhile (p := isDigitC) (l := cs)
      rw [List.all_eq_true]
      intro x hx
      rw [← hsplit, List.mem_append] at hx
      rcases hx with hx | hx
      · have hdx := List.all_eq_true.mp (takeWhile_self_all cs) x hx
        simp only [isAlnumHyC, Bool.or_eq_true]
        exact Or.inl hdx
      · rw [hd] at hx
        rcases List.mem_cons.mp hx with rfl | hx
        · simp only [isAlnumHyC, Bool.or_eq_true]
          exact Or.inr htail.1
        · exact List.all_eq_true.mp htail.2 x hx

theorem splitDots_chars {cs : List Char}
    (h : (splitDots cs).all (fun q => q.all isAlnumHyC) = true) :
    ∀ c ∈ cs, c = '.' ∨ isAlnumHyC c = true := by
  induction cs with
  | nil => intro c hc; cases hc
  | cons c0 rest ih =>
    intro c hc
    by_cases hdot : c0 = '.'
    · subst hdot
      rw [splitDots, if_pos rfl] at h
      simp only [List.all_cons, Bool.and_eq_true] at h
      rcases List.mem_cons.mp hc with rfl | hcr
      · exact Or.inl rfl
      · exact ih h.2 c hcr
    · rw [splitDots, if_neg hdot] at h
      rcases hsplit : splitDots rest with _ | ⟨q, qs⟩
      · rw [hsplit] at h
        simp only [List.all_cons, List.all_nil, Bool.and_eq_true] at h
        rcases List.mem_cons.mp hc with rfl | hcr
        · right
          simpa using h.1
        · exact ih (by rw [hsplit]; rfl) c hcr
      · rw [hsplit] at h
        simp only [List.all_cons, Bool.and_eq_true] at h
        rcases List.mem_cons.mp hc with rfl | hcr
        · right
          have hq := h.1
          simp only [List.all_cons, Bool.and_eq_true] at hq
          exact hq.1
        · refine ih ?_ c hcr
          rw [hsplit]
          have hq := h.1
          simp only [List.all_cons, Bool.and_eq_true] at hq ⊢
          exact ⟨hq.2, h.2⟩

theorem prOK_no_plus {p : List Char} (h : prOK p = true) : '+' ∉ p := by
  intro hmem
  have hall : (splitDots p).all (fun q => q.all isAlnumHyC) = true := by
    unfold prOK at h
    rw [List.all_eq_true] at h ⊢
    intro q hq
    exact prIdentOK_alnum (h q hq)
  rcases splitDots_chars hall '+' hmem with hdot | halnum
  · exact absurd hdot (by decide)
  · exact absurd halnum (by decide)

theorem readExtension_bm {b : List Char} (hb : bmOK b = true) :
    readExtension ('+' :: b) = some ([], b) := by
  simp [readExtension, hb]

theorem readExtension_pr {p : List Char} (hp : prOK p = true) :
    readExtension ('-' :: p) = some (p, []) := by
  simp only [readExtension, if_neg (by decide : ¬ '-' = '+'), if_pos rfl,
    splitAtPlus_no_plus (prOK_no_plus hp)]
  simp [hp]

theorem readExtension_pr_bm {p b : List Char} (hp : prOK p = true) (hb : bmOK b = true) :
    readExtension ('-' :: (p ++ '+' :: b)) = some (p, b) := by
  simp only [readExtension, if_neg (by decide : ¬ '-' = '+'), if_pos rfl,
    splitAtPlus_cut (prOK_no_plus hp)]
  simp [hp, hb]

theorem readExtension_inv {cs p b : List Char} (h : readExtension cs = some (p, b)) :
    (p = [] ∨ prOK p = true) ∧ (b = [] ∨ bmOK b = true) := by
  rcases cs with _ | ⟨c, rest⟩ <;> simp only [readExtension] at h
  · simp only [Option.some.injEq, Prod.mk.injEq] at h
    exact ⟨Or.inl h.1.symm, Or.inl h.2.symm⟩
  · split at h
    · split at h
      next hb =>
        simp only [Option.some.injEq, Prod.mk.injEq] at h
        refine ⟨Or.inl h.1.symm, Or.inr ?_⟩
        rw [← h.2]
        exact hb
      next => simp at h
    · split at h
      · split at h
        next pr hsplit =>
          split at h
          next hpr =>
            simp only [Option.some.injEq, Prod.mk.injEq] at h
            refine ⟨Or.inr ?_, Or.inl h.2.symm⟩
            rw [← h.1]
            exact hpr
          next => simp at h
        next pr bm hsplit =>
          split at h
          next hok =>
            simp only [Bool.and_eq_true] at hok
            simp only [Option.some.injEq, Prod.mk.injEq] at h
            refine ⟨Or.inr ?_, Or.inr ?_⟩
            · rw [← h.1]; exact hok.1
            · rw [← h.2]; exact hok.2
          next => simp at h
      · simp at h

theorem recognize3_inv {r m1 m2 o1 o2 o3 p b : List Char}
    (h : recognize3 r m1 m2 = some (o1, o2, o3, p, b)) :
    o1 = m1 ∧ o2 = m2 ∧ numOK o3 = true ∧
    (p = [] ∨ prOK p = true) ∧ (b = [] ∨ bmOK b = true) := by
  unfold recognize3 at h
  cases h3 : readNum r with
  | none => simp [h3] at h
  | some v3 =>
    obtain ⟨n3, r3⟩ := v3
    simp only [h3] at h
    cases hext : readExtension r3 with
    | none => simp [hext] at h
    | some ext =>
      obtain ⟨pp, bb⟩ := ext
      simp only [hext, Option.some.injEq, Prod.mk.injEq] at h
      obtain ⟨e1, e2, e3, e4, e5⟩ := h
      subst e1; subst e2; subst e3; subst e4; subst e5
      have hx := readExtension_inv hext
      exact ⟨rfl, rfl, readNum_inv h3, hx.1, hx.2⟩

theorem recognize2_inv {r m1 o1 o2 o3 p b : List Char}
    (h : recognize2 r m1 = some (o1, o2, o3, p, b)) :
    o1 = m1 ∧ numOK o2 = true ∧ numOK o3 = true ∧
    (p = [] ∨ prOK p = true) ∧ (b = [] ∨ bmOK b = true) := by
  unfold recognize2 at h
  cases h2 : readNum r with
  | none => simp [h2] at h
  | some v2 =>
    obtain ⟨n2, r2⟩ := v2
    simp only [h2] at h
    split at h
    · simp at h
    · split at h
      · have hx := recognize3_inv h
        exact ⟨hx.1, hx.2.1.symm ▸ readNum_inv h2, hx.2.2.1, hx.2.2.2⟩
      · simp at h

theorem recognize1_inv {cs o1 o2 o3 p b : List Char}
    (h : recognize1 cs = some (o1, o2, o3, p, b)) :
    numOK o1 = true ∧ numOK o2 = true ∧ numOK o3 = true ∧
    (p = [] ∨ prOK p = true) ∧ (b = [] ∨ bmOK b = true) := by
  unfold recognize1 at h
  cases h1 : readNum cs with
  | none => simp [h1] at h
  | some v1 =>
    obtain ⟨n1, r1⟩ := v1
    simp only [h1] at h
    split at h
    · simp at h
    · split at h
      · have hx := recognize2_inv h
        exact ⟨hx.1.symm ▸ readNum_inv h1, hx.2.1, hx.2.2.1, hx.2.2.2⟩
      · simp at h

theorem recognize_inv {s : String} {m1 m2 m3 p b : List Char}
    (h : recognize s = some (m1, m2, m3, p, b)) :
    numOK m1 = true ∧ numOK m2 = true ∧ numOK m3 = true ∧
    (p = [] ∨ prOK p = true) ∧ (b = [] ∨ bmOK b = true) := by
  obtain ⟨d⟩ := s
  rcases d with _ | ⟨c, cs⟩
  · simp [recognize] at h
  · simp only [recognize] at h
    split at h
    · exact recognize1_inv h
    · simp at h

theorem head_dot_not_digit (xs : List Char) :
    ∀ c, ('.' :: xs).head? = some c → isDigitC c = false := by
  intro c hc
  simp only [List.head?_cons, Option.some.injEq] at hc
  subst hc
  decide

theorem recognize_render {m1 m2 m3 ext p b : List Char}
    (h1 : numOK m1 = true) (h2 : numOK m2 = true) (h3 : numOK m3 = true)
    (hext : readExtension ext = some (p, b))
    (hhead : ∀ c, ext.head? = some c → isDigitC c = false) :
    recognize ⟨'v' :: (m1 ++ '.' :: (m2 ++ '.' :: (m3 ++ ext)))⟩
      = some (m1, m2, m3, p, b) := by
  have r1 : readNum (m1 ++ '.' :: (m2 ++ '.' :: (m3 ++ ext)))
      = some (m1, '.' :: (m2 ++ '.' :: (m3 ++ ext))) :=
    readNum_render h1 (head_dot_not_digit _)
  have r2 : readNum (m2 ++ '.' :: (m3 ++ ext)) = some (m2, '.' :: (m3 ++ ext)) :=
    readNum_render h2 (head_dot_not_digit _)
  have r3 : readNum (m3 ++ ext) = some (m3, ext) := readNum_render h3 hhead
  simp [recognize, recognize1, recognize2, recognize3, r1, r2, r3, hext]

theorem data_append (s t : String) : (s ++ t).data = s.data ++ t.data := by
  obtain ⟨a⟩ := s
  obtain ⟨b⟩ := t
  rfl

theorem String_eq_of_data {s t : String} (h : s.data = t.data) : s = t := by
  obtain ⟨a⟩ := s
  obtain ⟨b⟩ := t
  cases h
  rfl

theorem data_mk (cs : List Char) : (⟨cs⟩ : String).data = cs := rfl

theorem mk_eq_empty_iff (cs : List Char) : ((⟨cs⟩ : String) = "") ↔ cs = [] := by
  constructor
  · intro h
    have hd := congrArg String.data h
    simpa using hd
  · rintro rfl
    rfl

theorem intRepr_ofNat (n : Nat) : intRepr (n : Int) = ⟨natDigits n⟩ := by
  unfold intRepr
  rw [if_neg (by omega : ¬ (n : Int) < 0)]
  rw [Int.toNat_ofNat]
  rfl

theorem goAtoi_natDigits {n : Nat} (h : n ≤ 9223372036854775807) :
    goAtoi ⟨natDigits n⟩ = some (n : Int) := by
  rw [goAtoi_digits (natDigits_ne_nil n) (natDigits_all_digit n), natDigits_val, if_pos h]

/-- `Tag.String` on a tag with explicitly listed fields, computed down to
its character list. -/
theorem TagString_mk (n1 n2 n3 : Nat) (p b : List Char) :
    Tag.String ⟨(n1 : Int), (n2 : Int), (n3 : Int), ⟨p⟩, ⟨b⟩⟩ =
      ⟨'v' :: (natDigits n1 ++ '.' :: (natDigits n2 ++ '.' :: (natDigits n3 ++
        (if p = [] then (if b = [] then ([] : List Char) else '+' :: b)
         else if b = [] then '-' :: p else '-' :: (p ++ '+' :: b)))))⟩ := by
  apply String_eq_of_data
  unfold Tag.String
  rw [intRepr_ofNat, intRepr_ofNat, intRepr_ofNat]
  by_cases hp : p = [] <;> by_cases hb : b = []
  · subst hp; subst hb
    rw [if_pos (by simp [mk_eq_empty_iff])]
    simp [data_append, data_mk]
  · subst hp
    rw [if_neg (by simp [mk_eq_empty_iff, hb]),
      if_neg (by simp [mk_eq_empty_iff, hb]), if_pos rfl]
    simp [data_append, data_mk, hb]
  · subst hb
    rw [if_neg (by simp [mk_eq_empty_iff, hp]), if_pos rfl]
    simp [data_append, data_mk, hp]
  · rw [if_neg (by simp [mk_eq_empty_iff, hp]),
      if_neg (by simp [mk_eq_empty_iff, hb]),
      if_neg (by simp [mk_eq_empty_iff, hp])]
    simp [data_append, data_mk, hp, hb]

/-- Claim C4.  Round-trip: whenever `Parse` succeeds with tag `t`,
parsing the rendered string `Tag.String t` succeeds again with a tag
structurally equal to `t` (all five fields identical). -/
theorem Parse_roundtrip (s : String) (t : Tag) (h : Parse s = some (t, true)) :
    Parse (Tag.String t) = some (t, true) := by
  unfold Parse at h
  cases hr : recognize s with
  | none => simp [hr] at h
  | some parts =>
    obtain ⟨m1, m2, m3, p, b⟩ := parts
    simp only [hr] at h
    cases g1 : goAtoi ⟨m1⟩ with
    | none => simp [g1] at h
    | some v1 =>
      cases g2 : goAtoi ⟨m2⟩ with
      | none => simp [g1, g2] at h
      | some v2 =>
        cases g3 : goAtoi ⟨m3⟩ with
        | none => simp [g1, g2, g3] at h
        | some v3 =>
          simp only [g1, g2, g3, Option.some.injEq, Prod.mk.injEq] at h
          obtain ⟨ht, -⟩ := h
          subst ht
          obtain ⟨hn1, hn2, hn3, hp, hb⟩ := recognize_inv hr
          obtain ⟨hv1, hb1⟩ :=
            goAtoi_digits_inv ((numOK_iff.mp hn1).1) ((numOK_iff.mp hn1).2.1) g1
          obtain ⟨hv2, hb2⟩ :=
            goAtoi_digits_inv ((numOK_iff.mp hn2).1) ((numOK_iff.mp hn2).2.1) g2
          obtain ⟨hv3, hb3⟩ :=
            goAtoi_digits_inv ((numOK_iff.mp hn3).1) ((numOK_iff.mp hn3).2.1) g3
          subst hv1; subst hv2; subst hv3
          rw [TagString_mk]
          -- the rendered extension is read back as the captured groups
          have hext : readExtension
              (if p = [] then (if b = [] then ([] : List Char) else '+' :: b)
               else if b = [] then '-' :: p else '-' :: (p ++ '+' :: b))
              = some (p, b) := by
            by_cases hpe : p = [] <;> by_cases hbe : b = []
            · subst hpe; subst hbe; rfl
            · subst hpe
              rw [if_pos rfl, if_neg hbe]
              exact readExtension_bm (hb.resolve_left hbe)
            · subst hbe
              rw [if_neg hpe, if_pos rfl]
              exact readExtension_pr (hp.resolve_left hpe)
            · rw [if_neg hpe, if_neg hbe]
              exact readExtension_pr_bm (hp.resolve_left hpe) (hb.resolve_left hbe)
          have hhead : ∀ c, (if p = [] then (if b = [] then ([] : List Char) else '+' :: b)
               else if b = [] then '-' :: p else '-' :: (p ++ '+' :: b)).head? = some c →
              isDigitC c = false := by
            by_cases hpe : p = [] <;> by_cases hbe : b = [] <;>
              simp [hpe, hbe] <;> decide
          have hrec := recognize_render (natDigits_numOK (digitsVal m1))
            (natDigits_numOK (digitsVal m2)) (natDigits_numOK (digitsVal m3)) hext hhead
          unfold Parse
          rw [hrec]
          simp only [goAtoi_natDigits hb1, goAtoi_natDigits hb2, goAtoi_natDigits hb3]

/-- Witness for claim C4: a successfully parsed fixture string
re-parses from its rendering to the identical tag. -/
theorem Parse_roundtrip_w :
    Parse "v1.2.3-alpha.7+sha-1" = some (⟨1, 2, 3, "alpha.7", "sha-1"⟩, true) ∧
    Parse (Tag.String ⟨1, 2, 3, "alpha.7", "sha-1"⟩)
      = some (⟨1, 2, 3, "alpha.7", "sha-1"⟩, true) :=
  ⟨by decide,
    Parse_roundtrip "v1.2.3-alpha.7+sha-1" ⟨1, 2, 3, "alpha.7", "sha-1"⟩ (by decide)⟩

end Semantic
